import Mathlib

/-!
# Verification of `interpolateFeaturePoints.py`

A shallow embedding over `ℚ` of the waveform feature-point pipeline:

* `loadFeaturePoints` — pandas `read_csv` plus time normalization,
* `interpolateFeatures` — scipy `PchipInterpolator` (shape-preserving cubic
  Hermite interpolation, Fritsch–Carlson derivative selection) evaluated on a
  target grid,
* the inline scaler `meanFlowRate * interpolation * conversionConst`,
* `saveFlowRateData` — pandas `DataFrame.to_csv` with header `t,flow`,
* the `__main__` driver, including the `np.arange` time grid.

Machine floats are modelled by exact rationals; fallible library calls
(`read_csv`, the `PchipInterpolator` constructor, the `DataFrame` constructor)
are modelled with `Except String`.
-/

namespace Waveforms

/-! ## Cells: entries of a parsed CSV file

A parsed CSV cell is either a numeric value, a missing value (`NaN`, which
pandas inserts when a row is shorter than the first row), or a non-numeric
token (a string cell, which makes the enclosing pandas column an `object`
column whose arithmetic raises `TypeError`). -/

/-- A cell of a parsed CSV file: numeric, `NaN`, or a non-numeric token. -/
inductive Cell where
  | num (q : ℚ)
  | nan
  | nonnum
deriving DecidableEq

/-- Elementwise subtraction of cells, as pandas Series arithmetic behaves:
numbers subtract, `NaN` propagates, a non-numeric operand raises. -/
def Cell.sub : Cell → Cell → Except String Cell
  | .num a, .num b => .ok (.num (a - b))
  | .nonnum, _ => .error "TypeError"
  | _, .nonnum => .error "TypeError"
  | _, _ => .ok .nan

/-- Multiplication of a cell by a numeric scalar on the right (the `*1e-3`
step); only reached after subtraction, hence on numeric or `NaN` cells. -/
def Cell.scale (c : ℚ) : Cell → Cell
  | .num a => .num (a * c)
  | .nan => .nan
  | .nonnum => .nonnum

/-! ## The PCHIP interpolant (scipy `PchipInterpolator`)

Derivative selection follows scipy `_find_derivatives` and `_edge_case`
verbatim; evaluation follows the `CubicHermiteSpline`/`PPoly` piecewise cubic
with interval lookup by `searchsorted` and default extrapolation from the
first/last polynomial piece. -/

/-- `np.sign` on a rational. -/
def qsign (q : ℚ) : Int :=
  if 0 < q then 1 else if q < 0 then -1 else 0

/-- scipy `PchipInterpolator._edge_case h0 h1 m0 m1`: the non-centered
three-point derivative estimate at an end point, with the two
shape-preserving adjustments. -/
def edge_case (h0 h1 m0 m1 : ℚ) : ℚ :=
  let d := ((2 * h0 + h1) * m0 - h0 * m1) / (h0 + h1)
  if qsign d ≠ qsign m0 then 0
  else if qsign m0 ≠ qsign m1 ∧ |d| > 3 * |m0| then 3 * m0
  else d

/-- The interior derivative of `_find_derivatives`: zero at a local extremum
or flat slope, otherwise the weighted harmonic mean `1/whmean` of the two
neighbouring slopes. -/
def interiorDeriv (hkm1 hk mkm1 mk : ℚ) : ℚ :=
  if qsign mkm1 ≠ qsign mk ∨ mkm1 = 0 ∨ mk = 0 then 0
  else
    let w1 := 2 * hk + hkm1
    let w2 := hk + 2 * hkm1
    (w1 + w2) / (w1 / mkm1 + w2 / mk)

/-- The slope `mk` of the segment between two knots. -/
def slope (p q : ℚ × ℚ) : ℚ := (q.2 - p.2) / (q.1 - p.1)

/-- Interior and final derivatives of `_find_derivatives` for `n ≥ 3` knots:
`dAux pp pc rest` returns the derivatives at `pc` and at every knot of
`rest`, where `pp` is the knot before `pc`. -/
def dAux : ℚ × ℚ → ℚ × ℚ → List (ℚ × ℚ) → List ℚ
  | _, _, [] => []
  | pp, pc, [pn] =>
    [interiorDeriv (pc.1 - pp.1) (pn.1 - pc.1) (slope pp pc) (slope pc pn),
     edge_case (pn.1 - pc.1) (pc.1 - pp.1) (slope pc pn) (slope pp pc)]
  | pp, pc, pn :: pm :: rest =>
    interiorDeriv (pc.1 - pp.1) (pn.1 - pc.1) (slope pp pc) (slope pc pn) ::
      dAux pc pn (pm :: rest)

/-- scipy `_find_derivatives`: the derivative `dk` at every knot.  Two knots
use the single slope at both ends (linear interpolation); three or more use
`_edge_case` at the ends and the harmonic-mean rule inside. -/
def pchipDerivs : List (ℚ × ℚ) → List ℚ
  | [] => []
  | [_] => []
  | [p, q] => [slope p q, slope p q]
  | p0 :: p1 :: p2 :: rest =>
    edge_case (p1.1 - p0.1) (p2.1 - p1.1) (slope p0 p1) (slope p1 p2) ::
      dAux p0 p1 (p2 :: rest)

/-- The cubic Hermite piece on `[x0, x1]` with end values `y0, y1` and end
derivatives `d0, d1`, written with the `CubicHermiteSpline` local-power-basis
coefficients `c0 = y0`, `c1 = d0`, `c2 = (3m - 2 d0 - d1)/h`,
`c3 = (d0 + d1 - 2m)/h²` in `s = t - x0`. -/
def hermiteVal (x0 y0 d0 x1 y1 d1 t : ℚ) : ℚ :=
  let h := x1 - x0
  let m := (y1 - y0) / h
  let s := t - x0
  y0 + d0 * s + ((3 * m - 2 * d0 - d1) / h) * s ^ 2 +
    ((d0 + d1 - 2 * m) / h ^ 2) * s ^ 3

/-- `PPoly` evaluation: find the piece whose half-open interval
`[x_k, x_{k+1})` contains `t` (points below the first breakpoint use the
first piece and points at or above the last breakpoint use the last piece —
the default extrapolation) and evaluate its cubic. -/
def pchipEvalAux : List (ℚ × ℚ) → List ℚ → ℚ → ℚ
  | p0 :: p1 :: rest, d0 :: d1 :: ds, t =>
    if rest = [] ∨ t < p1.1 then hermiteVal p0.1 p0.2 d0 p1.1 p1.2 d1 t
    else pchipEvalAux (p1 :: rest) (d1 :: ds) t
  | _, _, _ => 0

/-- Boolean strict-increase test on a list (the `np.any(dx <= 0)` validation
of `prepare_input`). -/
def strictIncr : List ℚ → Bool
  | a :: b :: l => a < b && strictIncr (b :: l)
  | _ => true

/-- `interpolateFeatures(t, T, V)`: construct `PchipInterpolator(T, V)` and
evaluate it at every point of `t`.  The constructor validates that `T` has at
least two entries, that `V` has the same length, and that `T` is strictly
increasing, raising `ValueError` otherwise. -/
def interpolateFeatures (t T V : List ℚ) : Except String (List ℚ) :=
  if 2 ≤ T.length ∧ T.length = V.length ∧ strictIncr T then
    .ok (t.map (pchipEvalAux (T.zip V) (pchipDerivs (T.zip V))))
  else
    .error "ValueError"

/-! ## Basic facts about the Hermite piece -/

/-- The Hermite piece takes the value `y0` at its left end point. -/
lemma hermiteVal_left (x0 y0 d0 x1 y1 d1 : ℚ) :
    hermiteVal x0 y0 d0 x1 y1 d1 x0 = y0 := by
  simp [hermiteVal]

/-- The Hermite piece takes the value `y1` at its right end point. -/
lemma hermiteVal_right (x0 y0 d0 x1 y1 d1 : ℚ) (hne : x0 ≠ x1) :
    hermiteVal x0 y0 d0 x1 y1 d1 x1 = y1 := by
  have h : x1 - x0 ≠ 0 := sub_ne_zero.mpr (Ne.symm hne)
  simp only [hermiteVal]
  field_simp
  ring

/-- The divided difference of a Hermite cubic, after clearing denominators,
is nonnegative on the Fritsch–Carlson box `0 ≤ a, b ≤ 3D`. -/
lemma fcBox_dd_nonneg (h u v a b D : ℚ)
    (_hh : 0 < h) (hu : 0 ≤ u) (huv : u ≤ v) (hvh : v ≤ h)
    (hD : 0 ≤ D) (ha : 0 ≤ a) (ha3 : a ≤ 3 * D) (hb : 0 ≤ b) (hb3 : b ≤ 3 * D) :
    0 ≤ a * (h ^ 2 - 2 * h * (u + v) + (u ^ 2 + u * v + v ^ 2)) +
        b * ((u ^ 2 + u * v + v ^ 2) - h * (u + v)) +
        D * (3 * h * (u + v) - 2 * (u ^ 2 + u * v + v ^ 2)) := by
  set A : ℚ := h ^ 2 - 2 * h * (u + v) + (u ^ 2 + u * v + v ^ 2) with hA
  set B : ℚ := (u ^ 2 + u * v + v ^ 2) - h * (u + v) with hB
  set C : ℚ := 3 * h * (u + v) - 2 * (u ^ 2 + u * v + v ^ 2) with hC
  -- the four vertex positivity facts
  have hCn : 0 ≤ C := by
    have h1 : 0 ≤ (h - v) * (u + v) := mul_nonneg (by linarith) (by linarith)
    have h2 : 0 ≤ (v - u) * (v + 2 * u) := mul_nonneg (by linarith) (by linarith)
    have : C = 3 * ((h - v) * (u + v)) + (v - u) * (v + 2 * u) := by
      rw [hC]; ring
    linarith
  have h3AC : 0 ≤ 3 * A + C := by
    have : 4 * (3 * A + C) = (2 * u + v - 3 * h) ^ 2 + 3 * (v - h) ^ 2 := by
      rw [hA, hC]; ring
    nlinarith [sq_nonneg (2 * u + v - 3 * h), sq_nonneg (v - h)]
  have h3BC : 0 ≤ 3 * B + C := by
    have : 2 * (3 * B + C) = (u + v) ^ 2 + u ^ 2 + v ^ 2 := by
      rw [hB, hC]; ring
    nlinarith [sq_nonneg (u + v), sq_nonneg u, sq_nonneg v]
  have hABC : 0 ≤ 3 * A + 3 * B + C := by
    have : 4 * (3 * A + 3 * B + C) = (4 * u + 2 * v - 3 * h) ^ 2 + 3 * (2 * v - h) ^ 2 := by
      rw [hA, hB, hC]; ring
    nlinarith [sq_nonneg (4 * u + 2 * v - 3 * h), sq_nonneg (2 * v - h)]
  rcases le_or_lt 0 A with hAp | hAn <;> rcases le_or_lt 0 B with hBp | hBn
  · have := mul_nonneg ha hAp
    have := mul_nonneg hb hBp
    have := mul_nonneg hD hCn
    linarith
  · have h1 := mul_nonneg ha hAp
    have h2 := mul_nonneg hD h3BC
    have h3 := mul_nonneg (by linarith : (0:ℚ) ≤ 3 * D - b) (by linarith : (0:ℚ) ≤ -B)
    nlinarith [h1, h2, h3]
  · have h1 := mul_nonneg hb hBp
    have h2 := mul_nonneg hD h3AC
    have h3 := mul_nonneg (by linarith : (0:ℚ) ≤ 3 * D - a) (by linarith : (0:ℚ) ≤ -A)
    nlinarith [h1, h2, h3]
  · have h2 := mul_nonneg hD hABC
    have h3 := mul_nonneg (by linarith : (0:ℚ) ≤ 3 * D - a) (by linarith : (0:ℚ) ≤ -A)
    have h4 := mul_nonneg (by linarith : (0:ℚ) ≤ 3 * D - b) (by linarith : (0:ℚ) ≤ -B)
    nlinarith [h2, h3, h4]

set_option maxHeartbeats 1000000 in
/-- The difference of two values of a Hermite piece, multiplied by `h³`,
factors through the divided-difference form used in `fcBox_dd_nonneg`. -/
lemma hermiteVal_sub_mul (x0 y0 d0 x1 y1 d1 s t : ℚ) (hne : x1 - x0 ≠ 0) :
    (hermiteVal x0 y0 d0 x1 y1 d1 t - hermiteVal x0 y0 d0 x1 y1 d1 s) *
        (x1 - x0) ^ 3 =
      (t - s) *
        ((d0 * (x1 - x0)) *
            ((x1 - x0) ^ 2 - 2 * (x1 - x0) * ((s - x0) + (t - x0)) +
              ((s - x0) ^ 2 + (s - x0) * (t - x0) + (t - x0) ^ 2)) +
          (d1 * (x1 - x0)) *
            (((s - x0) ^ 2 + (s - x0) * (t - x0) + (t - x0) ^ 2) -
              (x1 - x0) * ((s - x0) + (t - x0))) +
          (y1 - y0) *
            (3 * (x1 - x0) * ((s - x0) + (t - x0)) -
              2 * ((s - x0) ^ 2 + (s - x0) * (t - x0) + (t - x0) ^ 2))) := by
  simp only [hermiteVal]
  field_simp
  ring

/-- Monotonicity of one Hermite piece: if the data rise across the interval
and both end derivatives are nonnegative and bounded by three times the
secant slope (the Fritsch–Carlson box), the piece is nondecreasing on the
closed interval. -/
lemma hermiteVal_mono (x0 y0 d0 x1 y1 d1 s t : ℚ)
    (hx : x0 < x1) (hy : y0 ≤ y1) (hd0 : 0 ≤ d0) (hd1 : 0 ≤ d1)
    (hb0 : d0 * (x1 - x0) ≤ 3 * (y1 - y0))
    (hb1 : d1 * (x1 - x0) ≤ 3 * (y1 - y0))
    (hs : x0 ≤ s) (hst : s ≤ t) (ht : t ≤ x1) :
    hermiteVal x0 y0 d0 x1 y1 d1 s ≤ hermiteVal x0 y0 d0 x1 y1 d1 t := by
  have hpos : (0:ℚ) < x1 - x0 := by linarith
  have hF := fcBox_dd_nonneg (x1 - x0) (s - x0) (t - x0)
      (d0 * (x1 - x0)) (d1 * (x1 - x0)) (y1 - y0)
      hpos (by linarith) (by linarith) (by linarith) (by linarith)
      (mul_nonneg hd0 (le_of_lt hpos)) hb0
      (mul_nonneg hd1 (le_of_lt hpos)) hb1
  have hkey := hermiteVal_sub_mul x0 y0 d0 x1 y1 d1 s t (ne_of_gt hpos)
  have hnum : 0 ≤ (hermiteVal x0 y0 d0 x1 y1 d1 t -
      hermiteVal x0 y0 d0 x1 y1 d1 s) * (x1 - x0) ^ 3 := by
    rw [hkey]
    exact mul_nonneg (by linarith) hF
  have hcube : (0:ℚ) < (x1 - x0) ^ 3 := by positivity
  have := (mul_nonneg_iff_of_pos_right hcube).mp hnum
  linarith

/-! ## Bounds on the PCHIP derivatives for monotone data -/

lemma qsign_pos {q : ℚ} (h : 0 < q) : qsign q = 1 := by
  simp [qsign, h]

lemma qsign_zero : qsign 0 = 0 := by
  simp [qsign]

lemma qsign_eq_zero_iff {q : ℚ} : qsign q = 0 ↔ q = 0 := by
  unfold qsign
  split_ifs with h1 h2
  · constructor <;> intro h <;> [exact absurd h one_ne_zero; exact absurd h (by linarith)]
  · constructor <;> intro h
    · exact absurd h (by norm_num)
    · exact absurd h (by linarith)
  · constructor <;> intro _ <;> [linarith; rfl]

lemma qsign_eq_one_iff {q : ℚ} : qsign q = 1 ↔ 0 < q := by
  unfold qsign
  split_ifs with h1 h2
  · simpa using h1
  · constructor
    · intro h; exact absurd h (by decide)
    · intro h; exact absurd h h1
  · constructor
    · intro h; exact absurd h (by decide)
    · intro h; exact absurd h h1

/-- For nondecreasing data the end-point derivative rule returns a value in
`[0, 3 m0]`, where `m0` is the slope of the adjacent interval. -/
lemma edge_case_bounds (h0 h1 m0 m1 : ℚ)
    (hh0 : 0 < h0) (hh1 : 0 < h1) (hm0 : 0 ≤ m0) (_hm1 : 0 ≤ m1) :
    0 ≤ edge_case h0 h1 m0 m1 ∧ edge_case h0 h1 m0 m1 ≤ 3 * m0 := by
  simp only [edge_case]
  set d : ℚ := ((2 * h0 + h1) * m0 - h0 * m1) / (h0 + h1) with hd
  split_ifs with hmask hmask2
  · exact ⟨le_refl 0, by linarith⟩
  · constructor <;> linarith
  · -- no clamp: `d` has the sign of `m0` and either the signs of `m0`, `m1`
    -- agree or `|d| ≤ 3 |m0|`
    push_neg at hmask
    rcases eq_or_lt_of_le hm0 with hm0z | hm0p
    · -- `m0 = 0` forces `d = 0`
      have hq : qsign d = 0 := by rw [hmask, ← hm0z, qsign_zero]
      have hdz : d = 0 := qsign_eq_zero_iff.mp hq
      rw [hdz]
      constructor <;> linarith
    · have hdpos : 0 < d := by
        have hq : qsign d = 1 := by rw [hmask]; exact qsign_pos hm0p
        exact qsign_eq_one_iff.mp hq
      constructor
      · exact le_of_lt hdpos
      · rcases Decidable.not_and_iff_or_not.mp hmask2 with hsame | habs
        · -- `m1` has the same sign as `m0`, hence `m1 > 0`
          push_neg at hsame
          have hm1p : 0 < m1 := by
            have hq : qsign m1 = 1 := by rw [← hsame]; exact qsign_pos hm0p
            exact qsign_eq_one_iff.mp hq
          have hsum : (0:ℚ) < h0 + h1 := by linarith
          rw [hd, div_le_iff₀ hsum]
          nlinarith [mul_nonneg (le_of_lt hh0) (le_of_lt hm1p),
            mul_nonneg (le_of_lt hh1) (le_of_lt hm0p)]
        · push_neg at habs
          calc d ≤ |d| := le_abs_self d
          _ ≤ 3 * |m0| := habs
          _ = 3 * m0 := by rw [abs_of_pos hm0p]

/-- For nondecreasing data the interior harmonic-mean derivative rule
returns a value in `[0, 3 min(m_{k-1}, m_k)]`. -/
lemma interiorDeriv_bounds (hkm1 hk mkm1 mk : ℚ)
    (hh0 : 0 < hkm1) (hh1 : 0 < hk) (hm0 : 0 ≤ mkm1) (hm1 : 0 ≤ mk) :
    0 ≤ interiorDeriv hkm1 hk mkm1 mk ∧
      interiorDeriv hkm1 hk mkm1 mk ≤ 3 * mkm1 ∧
      interiorDeriv hkm1 hk mkm1 mk ≤ 3 * mk := by
  unfold interiorDeriv
  split_ifs with hcond
  · exact ⟨le_refl 0, by linarith, by linarith⟩
  · push_neg at hcond
    obtain ⟨-, hm0ne, hm1ne⟩ := hcond
    have hm0p : 0 < mkm1 := lt_of_le_of_ne hm0 (Ne.symm hm0ne)
    have hm1p : 0 < mk := lt_of_le_of_ne hm1 (Ne.symm hm1ne)
    set w1 : ℚ := 2 * hk + hkm1 with hw1
    set w2 : ℚ := hk + 2 * hkm1 with hw2
    have hw1p : 0 < w1 := by rw [hw1]; linarith
    have hw2p : 0 < w2 := by rw [hw2]; linarith
    have hden : w1 / mkm1 + w2 / mk = (w1 * mk + w2 * mkm1) / (mkm1 * mk) := by
      field_simp
    have hnum_pos : 0 < w1 * mk + w2 * mkm1 := by positivity
    have hmm : 0 < mkm1 * mk := mul_pos hm0p hm1p
    have hdenpos : 0 < w1 / mkm1 + w2 / mk := by
      rw [hden]
      positivity
    have hval : (w1 + w2) / (w1 / mkm1 + w2 / mk) =
        (w1 + w2) * (mkm1 * mk) / (w1 * mk + w2 * mkm1) := by
      rw [hden, div_div_eq_mul_div]
    refine ⟨le_of_lt (div_pos (by linarith) hdenpos), ?_, ?_⟩
    · rw [hval, div_le_iff₀ hnum_pos]
      -- certificate: `3 mkm1 (w1 mk + w2 mkm1) - (w1+w2) mkm1 mk
      --   = mkm1 ((2 w1 - w2) mk + 3 w2 mkm1)` and `2 w1 - w2 = 3 hk ≥ 0`
      have h2w : 2 * w1 - w2 = 3 * hk := by rw [hw1, hw2]; ring
      nlinarith [mul_nonneg (mul_nonneg (le_of_lt hm0p) (le_of_lt hm1p)) (le_of_lt hh1),
        mul_nonneg (mul_nonneg (le_of_lt hw2p) (le_of_lt hm0p)) (le_of_lt hm0p)]
    · rw [hval, div_le_iff₀ hnum_pos]
      -- certificate: `3 mk (w1 mk + w2 mkm1) - (w1+w2) mkm1 mk
      --   = 3 w1 mk² + mkm1 mk (2 w2 - w1)` and `2 w2 - w1 = 3 hkm1 ≥ 0`
      have h2w : 2 * w2 - w1 = 3 * hkm1 := by rw [hw1, hw2]; ring
      nlinarith [mul_nonneg (mul_nonneg (le_of_lt hm0p) (le_of_lt hm1p)) (le_of_lt hh0),
        mul_nonneg (mul_nonneg (le_of_lt hw1p) (le_of_lt hm1p)) (le_of_lt hm1p)]

/-! ## The Fritsch–Carlson invariant along the knot list -/

/-- The per-interval invariant between consecutive (knot, derivative) pairs:
the knots rise in time and value, and both end derivatives are nonnegative
and bounded by three times the secant slope of the interval. -/
def knotOK (a b : (ℚ × ℚ) × ℚ) : Prop :=
  a.1.1 < b.1.1 ∧ a.1.2 ≤ b.1.2 ∧ 0 ≤ a.2 ∧ 0 ≤ b.2 ∧
    a.2 * (b.1.1 - a.1.1) ≤ 3 * (b.1.2 - a.1.2) ∧
    b.2 * (b.1.1 - a.1.1) ≤ 3 * (b.1.2 - a.1.2)

lemma slope_nonneg (p q : ℚ × ℚ) (hx : p.1 < q.1) (hy : p.2 ≤ q.2) :
    0 ≤ slope p q :=
  div_nonneg (by linarith) (by linarith)

lemma slope_mul (p q : ℚ × ℚ) (hx : p.1 < q.1) :
    slope p q * (q.1 - p.1) = q.2 - p.2 := by
  unfold slope
  exact div_mul_cancel₀ _ (sub_ne_zero.mpr (ne_of_gt hx))

lemma slope_mul_bound (p q : ℚ × ℚ) (hx : p.1 < q.1) (d : ℚ)
    (hd : d ≤ 3 * slope p q) : d * (q.1 - p.1) ≤ 3 * (q.2 - p.2) := by
  have h1 : d * (q.1 - p.1) ≤ 3 * slope p q * (q.1 - p.1) :=
    mul_le_mul_of_nonneg_right hd (by linarith)
  have h2 : 3 * slope p q * (q.1 - p.1) = 3 * (q.2 - p.2) := by
    rw [mul_assoc, slope_mul p q hx]
  linarith

lemma dAux_length : ∀ (rest : List (ℚ × ℚ)) (pp pc : ℚ × ℚ), rest ≠ [] →
    (dAux pp pc rest).length = rest.length + 1
  | [], _, _, h => absurd rfl h
  | [_], _, _, _ => rfl
  | pn :: pm :: r, _, pc, _ => by
    simp only [dAux, List.length_cons]
    rw [dAux_length (pm :: r) pc pn (by simp)]
    simp

/-- Walking `dAux` over nondecreasing, strictly-time-increasing knots yields
derivatives whose zip with the remaining knots satisfies `knotOK` pairwise,
and whose first entry lies in `[0, 3 · slope pp pc]`. -/
lemma dAux_chain : ∀ (rest : List (ℚ × ℚ)) (pp pc : ℚ × ℚ), rest ≠ [] →
    List.Chain' (fun p q : ℚ × ℚ => p.1 < q.1) (pp :: pc :: rest) →
    List.Chain' (fun p q : ℚ × ℚ => p.2 ≤ q.2) (pp :: pc :: rest) →
    ∃ d ds, dAux pp pc rest = d :: ds ∧ 0 ≤ d ∧ d ≤ 3 * slope pp pc ∧
      List.Chain' knotOK ((pc :: rest).zip (dAux pp pc rest))
  | [], _, _, h, _, _ => absurd rfl h
  | [pn], pp, pc, _, hX, hY => by
    obtain ⟨hx01, hXt⟩ := List.chain'_cons.mp hX
    obtain ⟨hx12, -⟩ := List.chain'_cons.mp hXt
    obtain ⟨hy01, hYt⟩ := List.chain'_cons.mp hY
    obtain ⟨hy12, -⟩ := List.chain'_cons.mp hYt
    obtain ⟨hi0, hi1, hi2⟩ := interiorDeriv_bounds (pc.1 - pp.1) (pn.1 - pc.1)
      (slope pp pc) (slope pc pn) (by linarith) (by linarith)
      (slope_nonneg pp pc hx01 hy01) (slope_nonneg pc pn hx12 hy12)
    obtain ⟨he0, he1⟩ := edge_case_bounds (pn.1 - pc.1) (pc.1 - pp.1)
      (slope pc pn) (slope pp pc) (by linarith) (by linarith)
      (slope_nonneg pc pn hx12 hy12) (slope_nonneg pp pc hx01 hy01)
    refine ⟨_, _, rfl, hi0, hi1, ?_⟩
    simp only [dAux, List.zip_cons_cons, List.zip_nil_right, List.chain'_cons,
      List.chain'_singleton, and_true]
    exact ⟨hx12, hy12, hi0, he0,
      slope_mul_bound pc pn hx12 _ hi2, slope_mul_bound pc pn hx12 _ he1⟩
  | pn :: pm :: r, pp, pc, _, hX, hY => by
    obtain ⟨hx01, hXt⟩ := List.chain'_cons.mp hX
    obtain ⟨hx12, -⟩ := List.chain'_cons.mp hXt
    obtain ⟨hy01, hYt⟩ := List.chain'_cons.mp hY
    obtain ⟨hy12, -⟩ := List.chain'_cons.mp hYt
    obtain ⟨hi0, hi1, hi2⟩ := interiorDeriv_bounds (pc.1 - pp.1) (pn.1 - pc.1)
      (slope pp pc) (slope pc pn) (by linarith) (by linarith)
      (slope_nonneg pp pc hx01 hy01) (slope_nonneg pc pn hx12 hy12)
    obtain ⟨d, ds, heq, hd0, hd1, hchain⟩ :=
      dAux_chain (pm :: r) pc pn (by simp) hXt hYt
    refine ⟨_, _, rfl, hi0, hi1, ?_⟩
    show List.Chain' knotOK ((pc :: pn :: pm :: r).zip
      (interiorDeriv (pc.1 - pp.1) (pn.1 - pc.1) (slope pp pc) (slope pc pn) ::
        dAux pc pn (pm :: r)))
    rw [heq] at hchain ⊢
    simp only [List.zip_cons_cons, List.chain'_cons] at hchain ⊢
    refine ⟨⟨hx12, hy12, hi0, hd0,
      slope_mul_bound pc pn hx12 _ hi2, slope_mul_bound pc pn hx12 _ hd1⟩, ?_⟩
    simpa only [List.zip_cons_cons] using hchain

lemma pchipDerivs_length (pts : List (ℚ × ℚ)) (h2 : 2 ≤ pts.length) :
    (pchipDerivs pts).length = pts.length := by
  match pts, h2 with
  | [p, q], _ => rfl
  | p0 :: p1 :: p2 :: rest, _ =>
    simp only [pchipDerivs, List.length_cons]
    rw [dAux_length (p2 :: rest) p0 p1 (by simp)]
    simp

/-- For valid monotone data the full `pchipDerivs` list satisfies the
Fritsch–Carlson invariant pairwise along the knots. -/
lemma pchipDerivs_chain (pts : List (ℚ × ℚ)) (h2 : 2 ≤ pts.length)
    (hX : List.Chain' (fun p q : ℚ × ℚ => p.1 < q.1) pts)
    (hY : List.Chain' (fun p q : ℚ × ℚ => p.2 ≤ q.2) pts) :
    List.Chain' knotOK (pts.zip (pchipDerivs pts)) := by
  match pts, h2 with
  | [p, q], _ =>
    obtain ⟨hx, -⟩ := List.chain'_cons.mp hX
    obtain ⟨hy, -⟩ := List.chain'_cons.mp hY
    have hm : 0 ≤ slope p q := slope_nonneg p q hx hy
    have hmm : slope p q * (q.1 - p.1) = q.2 - p.2 := slope_mul p q hx
    simp only [pchipDerivs, List.zip_cons_cons, List.zip_nil_right,
      List.chain'_cons, List.chain'_singleton, and_true]
    exact ⟨hx, hy, hm, hm, by linarith, by linarith⟩
  | p0 :: p1 :: p2 :: rest, _ =>
    obtain ⟨hx01, hXt⟩ := List.chain'_cons.mp hX
    obtain ⟨hx12, -⟩ := List.chain'_cons.mp hXt
    obtain ⟨hy01, hYt⟩ := List.chain'_cons.mp hY
    obtain ⟨hy12, -⟩ := List.chain'_cons.mp hYt
    obtain ⟨he0, he1⟩ := edge_case_bounds (p1.1 - p0.1) (p2.1 - p1.1)
      (slope p0 p1) (slope p1 p2) (by linarith) (by linarith)
      (slope_nonneg p0 p1 hx01 hy01) (slope_nonneg p1 p2 hx12 hy12)
    obtain ⟨d, ds, heq, hd0, hd1, hchain⟩ :=
      dAux_chain (p2 :: rest) p0 p1 (by simp) hX hY
    show List.Chain' knotOK ((p0 :: p1 :: p2 :: rest).zip
      (edge_case (p1.1 - p0.1) (p2.1 - p1.1) (slope p0 p1) (slope p1 p2) ::
        dAux p0 p1 (p2 :: rest)))
    rw [heq] at hchain ⊢
    simp only [List.zip_cons_cons, List.chain'_cons] at hchain ⊢
    refine ⟨⟨hx01, hy01, he0, hd0,
      slope_mul_bound p0 p1 hx01 _ he1, slope_mul_bound p0 p1 hx01 _ hd1⟩, ?_⟩
    simpa only [List.zip_cons_cons] using hchain

/-! ## Evaluation lemmas for the piecewise interpolant -/

lemma pchipEvalAux_two (p0 p1 : ℚ × ℚ) (d0 d1 t : ℚ) :
    pchipEvalAux [p0, p1] [d0, d1] t = hermiteVal p0.1 p0.2 d0 p1.1 p1.2 d1 t := by
  simp only [pchipEvalAux]
  rw [if_pos (Or.inl trivial)]

lemma pchipEvalAux_cons_lt (p0 p1 p2 : ℚ × ℚ) (rest : List (ℚ × ℚ))
    (d0 d1 d2 : ℚ) (ds : List ℚ) (t : ℚ) (h : t < p1.1) :
    pchipEvalAux (p0 :: p1 :: p2 :: rest) (d0 :: d1 :: d2 :: ds) t =
      hermiteVal p0.1 p0.2 d0 p1.1 p1.2 d1 t := by
  simp only [pchipEvalAux]
  rw [if_pos (Or.inr h)]

lemma pchipEvalAux_cons_ge (p0 p1 p2 : ℚ × ℚ) (rest : List (ℚ × ℚ))
    (d0 d1 d2 : ℚ) (ds : List ℚ) (t : ℚ) (h : p1.1 ≤ t) :
    pchipEvalAux (p0 :: p1 :: p2 :: rest) (d0 :: d1 :: d2 :: ds) t =
      pchipEvalAux (p1 :: p2 :: rest) (d1 :: d2 :: ds) t := by
  simp only [pchipEvalAux]
  rw [if_neg]
  intro hc
  rcases hc with hc | hc
  · exact List.cons_ne_nil _ _ hc
  · exact absurd hc (not_lt.mpr h)

/-- The interpolant takes the left-end value of the active piece at the left
knot of that piece; with the interval invariant this lets values chain
across pieces. -/
lemma pchipEvalAux_mono (rest : List (ℚ × ℚ)) :
    ∀ (ds : List ℚ) (p0 p1 : ℚ × ℚ) (d0 d1 s t : ℚ),
    ds.length = rest.length →
    List.Chain' knotOK ((p0, d0) :: (p1, d1) :: rest.zip ds) →
    p0.1 ≤ s → s ≤ t → t ≤ (rest.getLastD p1).1 →
    pchipEvalAux (p0 :: p1 :: rest) (d0 :: d1 :: ds) s ≤
      pchipEvalAux (p0 :: p1 :: rest) (d0 :: d1 :: ds) t := by
  induction rest with
  | nil =>
    intro ds p0 p1 d0 d1 s t hlen hchain hs hst ht
    have hds : ds = [] := List.length_eq_zero.mp hlen
    subst hds
    obtain ⟨h01, -⟩ := List.chain'_cons.mp hchain
    simp only [knotOK] at h01
    obtain ⟨hx, hy, hd0, hd1, hb0, hb1⟩ := h01
    rw [pchipEvalAux_two, pchipEvalAux_two]
    exact hermiteVal_mono _ _ _ _ _ _ _ _ hx hy hd0 hd1 hb0 hb1 hs hst
      (by simpa using ht)
  | cons p2 rest2 ih =>
    intro ds p0 p1 d0 d1 s t hlen hchain hs hst ht
    match ds, hlen with
    | d2 :: ds2, hlen =>
    have hlen2 : ds2.length = rest2.length := by simpa using hlen
    rw [List.zip_cons_cons] at hchain
    obtain ⟨h01, hct⟩ := List.chain'_cons.mp hchain
    obtain ⟨h12, -⟩ := List.chain'_cons.mp hct
    simp only [knotOK] at h01 h12
    obtain ⟨hx01, hy01, hd0n, hd1n, hb0, hb1⟩ := h01
    obtain ⟨hx12, hy12, -, hd2n, hb2, hb3⟩ := h12
    have hlast : (rest2.getLastD p2).1 = ((p2 :: rest2).getLastD p1).1 := by
      rw [List.getLastD_cons]
    rcases lt_or_le t p1.1 with htlt | htge
    · have hslt : s < p1.1 := lt_of_le_of_lt hst htlt
      rw [pchipEvalAux_cons_lt _ _ _ _ _ _ _ _ _ hslt,
        pchipEvalAux_cons_lt _ _ _ _ _ _ _ _ _ htlt]
      exact hermiteVal_mono _ _ _ _ _ _ _ _ hx01 hy01 hd0n hd1n hb0 hb1 hs hst
        (le_of_lt htlt)
    · rcases lt_or_le s p1.1 with hslt | hsge
      · rw [pchipEvalAux_cons_lt _ _ _ _ _ _ _ _ _ hslt,
          pchipEvalAux_cons_ge _ _ _ _ _ _ _ _ _ htge]
        have step1 : hermiteVal p0.1 p0.2 d0 p1.1 p1.2 d1 s ≤ p1.2 := by
          have := hermiteVal_mono p0.1 p0.2 d0 p1.1 p1.2 d1 s p1.1
            hx01 hy01 hd0n hd1n hb0 hb1 hs (le_of_lt hslt) (le_refl _)
          rwa [hermiteVal_right _ _ _ _ _ _ (ne_of_lt hx01)] at this
        have step2 : pchipEvalAux (p1 :: p2 :: rest2) (d1 :: d2 :: ds2) p1.1
            = p1.2 := by
          match rest2, ds2, hlen2 with
          | [], [], _ =>
            rw [pchipEvalAux_two]
            exact hermiteVal_left _ _ _ _ _ _
          | p3 :: r3, d3 :: e3, _ =>
            rw [pchipEvalAux_cons_lt _ _ _ _ _ _ _ _ _ hx12]
            exact hermiteVal_left _ _ _ _ _ _
        have step3 : pchipEvalAux (p1 :: p2 :: rest2) (d1 :: d2 :: ds2) p1.1 ≤
            pchipEvalAux (p1 :: p2 :: rest2) (d1 :: d2 :: ds2) t :=
          ih ds2 p1 p2 d1 d2 p1.1 t hlen2 hct (le_refl _) htge
            (by rw [hlast]; exact ht)
        linarith
      · rw [pchipEvalAux_cons_ge _ _ _ _ _ _ _ _ _ hsge,
          pchipEvalAux_cons_ge _ _ _ _ _ _ _ _ _ htge]
        exact ih ds2 p1 p2 d1 d2 s t hlen2 hct hsge hst
          (by rw [hlast]; exact ht)

/-- The interpolant passes exactly through every knot (for strictly
increasing knot times, regardless of the values). -/
lemma pchipEvalAux_knot (rest : List (ℚ × ℚ)) :
    ∀ (ds : List ℚ) (p0 p1 : ℚ × ℚ) (d0 d1 : ℚ),
    ds.length = rest.length →
    List.Chain' (fun p q : ℚ × ℚ => p.1 < q.1) (p0 :: p1 :: rest) →
    ∀ p ∈ (p0 :: p1 :: rest),
      pchipEvalAux (p0 :: p1 :: rest) (d0 :: d1 :: ds) p.1 = p.2 := by
  induction rest with
  | nil =>
    intro ds p0 p1 d0 d1 hlen hX p hp
    have hds : ds = [] := List.length_eq_zero.mp hlen
    subst hds
    obtain ⟨hx01, -⟩ := List.chain'_cons.mp hX
    simp only [List.mem_cons, List.not_mem_nil, or_false] at hp
    rcases hp with hp | hp
    · rw [hp, pchipEvalAux_two]
      exact hermiteVal_left _ _ _ _ _ _
    · rw [hp, pchipEvalAux_two]
      exact hermiteVal_right _ _ _ _ _ _ (ne_of_lt hx01)
  | cons p2 rest2 ih =>
    intro ds p0 p1 d0 d1 hlen hX p hp
    match ds, hlen with
    | d2 :: ds2, hlen =>
    have hlen2 : ds2.length = rest2.length := by simpa using hlen
    obtain ⟨hx01, hXt⟩ := List.chain'_cons.mp hX
    rcases List.mem_cons.mp hp with hp | hp
    · rw [hp, pchipEvalAux_cons_lt _ _ _ _ _ _ _ _ _ hx01]
      exact hermiteVal_left _ _ _ _ _ _
    · have hge : p1.1 ≤ p.1 := by
        rcases List.mem_cons.mp hp with hp | hp
        · rw [hp]
        · haveI : IsTrans (ℚ × ℚ) (fun p q : ℚ × ℚ => p.1 < q.1) :=
            ⟨fun _ _ _ h1 h2 => lt_trans h1 h2⟩
          have hpw : List.Pairwise (fun p q : ℚ × ℚ => p.1 < q.1)
              (p1 :: p2 :: rest2) := List.chain'_iff_pairwise.mp hXt
          exact le_of_lt ((List.pairwise_cons.mp hpw).1 p hp)
      rw [pchipEvalAux_cons_ge _ _ _ _ _ _ _ _ _ hge]
      exact ih ds2 p1 p2 d1 d2 hlen2 hXt p hp

/-! ## Bridging helpers between the list-of-pairs and two-list views -/

lemma strictIncr_iff : ∀ (l : List ℚ), strictIncr l = true ↔ List.Chain' (· < ·) l
  | [] => by simp [strictIncr]
  | [a] => by simp [strictIncr]
  | a :: b :: l => by
    simp only [strictIncr, Bool.and_eq_true, decide_eq_true_eq, List.chain'_cons]
    rw [strictIncr_iff (b :: l)]

lemma chain'_fst_zip (T V : List ℚ) (h : T.length = V.length)
    (hT : List.Chain' (· < ·) T) :
    List.Chain' (fun p q : ℚ × ℚ => p.1 < q.1) (T.zip V) := by
  have hmap : (T.zip V).map Prod.fst = T := List.map_fst_zip T V (le_of_eq h)
  rw [← hmap] at hT
  exact (List.chain'_map Prod.fst).mp hT

lemma chain'_snd_zip (T V : List ℚ) (h : T.length = V.length)
    (hV : List.Chain' (· ≤ ·) V) :
    List.Chain' (fun p q : ℚ × ℚ => p.2 ≤ q.2) (T.zip V) := by
  have hmap : (T.zip V).map Prod.snd = V := List.map_snd_zip T V (le_of_eq h.symm)
  rw [← hmap] at hV
  exact (List.chain'_map Prod.snd).mp hV

lemma zip_getLastD_fst : ∀ (T V : List ℚ) (a b : ℚ), T.length = V.length →
    ((T.zip V).getLastD (a, b)).1 = T.getLastD a
  | [], [], _, _, _ => rfl
  | t :: T, v :: V, a, b, h => by
    simp only [List.zip_cons_cons, List.getLastD_cons]
    exact zip_getLastD_fst T V t v (by simpa using h)
  | [], _ :: _, _, _, h => by simp at h
  | _ :: _, [], _, _, h => by simp at h

lemma pchipDerivs_shape (p0 p1 : ℚ × ℚ) (rest : List (ℚ × ℚ)) :
    ∃ d0 d1 ds2, pchipDerivs (p0 :: p1 :: rest) = d0 :: d1 :: ds2 ∧
      ds2.length = rest.length := by
  cases rest with
  | nil => exact ⟨_, _, [], rfl, rfl⟩
  | cons p2 r =>
    have hlen := dAux_length (p2 :: r) p0 p1 (by simp)
    cases hd : dAux p0 p1 (p2 :: r) with
    | nil => rw [hd] at hlen; simp at hlen
    | cons d1 ds2 =>
      refine ⟨edge_case (p1.1 - p0.1) (p2.1 - p1.1) (slope p0 p1) (slope p1 p2),
        d1, ds2, by simp [pchipDerivs, hd], ?_⟩
      rw [hd] at hlen
      simpa using hlen

lemma chain'_map_le (f : ℚ → ℚ) : ∀ (ts : List ℚ),
    List.Chain' (· ≤ ·) ts →
    (∀ x ∈ ts, ∀ y ∈ ts, x ≤ y → f x ≤ f y) →
    List.Chain' (· ≤ ·) (ts.map f)
  | [], _, _ => by simp
  | [x], _, _ => by simp
  | x :: y :: l, hc, hm => by
    obtain ⟨hxy, ht⟩ := List.chain'_cons.mp hc
    have htl : List.Chain' (· ≤ ·) ((y :: l).map f) :=
      chain'_map_le f (y :: l) ht
        (fun p hp q hq hpq =>
          hm p (List.mem_cons_of_mem x hp) q (List.mem_cons_of_mem x hq) hpq)
    simp only [List.map_cons] at htl ⊢
    exact List.chain'_cons.mpr ⟨hm x (by simp) y (by simp) hxy, htl⟩

lemma map_knots_eq (f : ℚ → ℚ) : ∀ (T V : List ℚ), T.length = V.length →
    (∀ p ∈ T.zip V, f p.1 = p.2) → T.map f = V
  | [], [], _, _ => rfl
  | t :: T, v :: V, h, hf => by
    simp only [List.map_cons]
    rw [hf (t, v) (by simp),
      map_knots_eq f T V (by simpa using h)
        (fun p hp => hf p (by simp [List.zip_cons_cons, hp]))]
  | [], _ :: _, h, _ => by simp at h
  | _ :: _, [], h, _ => by simp at h

/-! ## Theorems about `interpolateFeatures` -/

/-- C1.  Monotonic preservation: for strictly increasing knot times and
nondecreasing knot values, evaluating the PCHIP interpolant at any
nondecreasing sequence of target times inside
`[min knownTimes, max knownTimes]` succeeds and yields a nondecreasing
sequence (the shape-preserving interpolant does not overshoot between
monotonic data points). -/
theorem interpolateFeatures_monotone (ts T V : List ℚ)
    (hlen2 : 2 ≤ T.length) (hlen : T.length = V.length)
    (hT : List.Chain' (· < ·) T) (hV : List.Chain' (· ≤ ·) V)
    (hts : List.Chain' (· ≤ ·) ts)
    (hmem : ∀ x ∈ ts, T.headD 0 ≤ x ∧ x ≤ T.getLastD 0) :
    ∃ out, interpolateFeatures ts T V = Except.ok out ∧
      List.Chain' (· ≤ ·) out := by
  have hsi : strictIncr T = true := (strictIncr_iff T).mpr hT
  have hres : interpolateFeatures ts T V =
      Except.ok (ts.map (pchipEvalAux (T.zip V) (pchipDerivs (T.zip V)))) := by
    unfold interpolateFeatures
    rw [if_pos]
    exact ⟨hlen2, hlen, hsi⟩
  refine ⟨_, hres, ?_⟩
  rcases T with _ | ⟨t0, T1⟩
  · simp at hlen2
  rcases T1 with _ | ⟨t1, T2⟩
  · simp at hlen2
  rcases V with _ | ⟨v0, V1⟩
  · simp at hlen
  rcases V1 with _ | ⟨v1, V2⟩
  · simp at hlen
  have hlen22 : T2.length = V2.length := by simpa using hlen
  have hzlen : (T2.zip V2).length = T2.length := by
    rw [List.length_zip, hlen22, min_self]
  obtain ⟨d0, d1, ds2, hshape, hdlen⟩ :=
    pchipDerivs_shape (t0, v0) (t1, v1) (T2.zip V2)
  have hchain := pchipDerivs_chain ((t0, v0) :: (t1, v1) :: T2.zip V2)
    (by simp) (chain'_fst_zip _ _ hlen hT) (chain'_snd_zip _ _ hlen hV)
  rw [hshape, List.zip_cons_cons, List.zip_cons_cons] at hchain
  have hdlen2 : ds2.length = (T2.zip V2).length := by rw [hdlen, hzlen]
  apply chain'_map_le
  · exact hts
  · intro x hx y hy hxy
    obtain ⟨hx1, hx2⟩ := hmem x hx
    obtain ⟨-, hy2⟩ := hmem y hy
    have hxlo : t0 ≤ x := by simpa using hx1
    have hyhi : y ≤ ((T2.zip V2).getLastD (t1, v1)).1 := by
      rw [zip_getLastD_fst T2 V2 t1 v1 hlen22]
      have hlast : (t0 :: t1 :: T2 : List ℚ).getLastD 0 = T2.getLastD t1 := by
        rw [List.getLastD_cons, List.getLastD_cons]
      rw [← hlast]
      exact hy2
    simp only [List.zip_cons_cons, hshape]
    exact pchipEvalAux_mono (T2.zip V2) ds2 (t0, v0) (t1, v1) d0 d1 x y
      hdlen2 hchain hxlo hxy hyhi

/-- C2.  Round-trip identity: for any valid knot set — in particular a
two-point one — evaluating the interpolant at the knot times returns the
knot values exactly (the fitted interpolant passes through every knot). -/
theorem interpolateFeatures_knots (T V : List ℚ)
    (hlen2 : 2 ≤ T.length) (hlen : T.length = V.length)
    (hT : List.Chain' (· < ·) T) :
    interpolateFeatures T T V = Except.ok V := by
  have hsi : strictIncr T = true := (strictIncr_iff T).mpr hT
  have hres : interpolateFeatures T T V =
      Except.ok (T.map (pchipEvalAux (T.zip V) (pchipDerivs (T.zip V)))) := by
    unfold interpolateFeatures
    rw [if_pos]
    exact ⟨hlen2, hlen, hsi⟩
  rw [hres]
  congr 1
  rcases T with _ | ⟨t0, T1⟩
  · simp at hlen2
  rcases T1 with _ | ⟨t1, T2⟩
  · simp at hlen2
  rcases V with _ | ⟨v0, V1⟩
  · simp at hlen
  rcases V1 with _ | ⟨v1, V2⟩
  · simp at hlen
  have hlen22 : T2.length = V2.length := by simpa using hlen
  have hzlen : (T2.zip V2).length = T2.length := by
    rw [List.length_zip, hlen22, min_self]
  obtain ⟨d0, d1, ds2, hshape, hdlen⟩ :=
    pchipDerivs_shape (t0, v0) (t1, v1) (T2.zip V2)
  have hdlen2 : ds2.length = (T2.zip V2).length := by rw [hdlen, hzlen]
  apply map_knots_eq _ _ _ hlen
  intro p hp
  simp only [List.zip_cons_cons] at hp ⊢
  rw [hshape]
  exact pchipEvalAux_knot (T2.zip V2) ds2 (t0, v0) (t1, v1) d0 d1 hdlen2
    (by simpa using chain'_fst_zip _ _ hlen hT) p hp

/-- C6.  Degenerate input: fewer than two knot times, or knot times that are
not strictly increasing (duplicates or decreases), make
`interpolateFeatures` fail with the constructor's `ValueError` instead of
returning values. -/
theorem interpolateFeatures_degenerate (ts T V : List ℚ)
    (h : T.length < 2 ∨ ¬ List.Chain' (· < ·) T) :
    interpolateFeatures ts T V = Except.error "ValueError" := by
  unfold interpolateFeatures
  rw [if_neg]
  rintro ⟨h1, -, h3⟩
  rcases h with h | h
  · omega
  · exact h ((strictIncr_iff T).mp h3)

/-! ## The loader: `loadFeaturePoints`

The input file is modelled as `Option (List (List Cell))`: `none` is a
missing file, otherwise the tokenized rows.  `pd.read_csv(..., delimiter=',',
header=None)` raises on a missing file, an empty file, and on a row with more
fields than the first row; a row with fewer fields is padded with `NaN`.
Column `j` of the parsed frame exists when `j` is below the column count
(the first-row width); accessing a missing column raises `KeyError`. -/

/-- Pad a parsed row to the frame width with `NaN`, as pandas does for rows
with fewer fields than the first row. -/
def padRow (n : Nat) (r : List Cell) : List Cell :=
  r ++ List.replicate (n - r.length) Cell.nan

/-- `pd.read_csv` on the tokenized file. -/
def read_csv (file : Option (List (List Cell))) : Except String (List (List Cell)) :=
  match file with
  | none => .error "FileNotFoundError"
  | some [] => .error "EmptyDataError"
  | some (r0 :: rs) =>
    if (r0 :: rs).any (fun r => r0.length < r.length) then .error "ParserError"
    else .ok ((r0 :: rs).map (padRow r0.length))

/-- `data[j]`: the `j`-th column of the parsed frame (all rows have the
first-row width after padding). -/
def getCol (rows : List (List Cell)) (j : Nat) : Except String (List Cell) :=
  match rows with
  | [] => .error "KeyError"
  | r0 :: _ =>
    if j < r0.length then .ok (rows.map (fun r => r.getD j Cell.nan))
    else .error "KeyError"

/-- The elementwise Series subtraction `data[0] - c0`, raising `TypeError`
when a non-numeric cell is involved. -/
def subAll (c0 : Cell) : List Cell → Except String (List Cell)
  | [] => .ok []
  | c :: l =>
    match c.sub c0 with
    | .error e => .error e
    | .ok b =>
      match subAll c0 l with
      | .error e => .error e
      | .ok bs => .ok (b :: bs)

/-- `loadFeaturePoints(inputFile)`: read the csv, then
`T = (data[0] - 1*data[0][0]) * 1e-3` and `V = data[1]`, in the evaluation
order of the source (column 0, its arithmetic, then column 1).  Note
`1 * data[0][0]` leaves every kind of cell unchanged (number, `NaN`, or a
string, which Python repeats once). -/
def loadFeaturePoints (file : Option (List (List Cell))) :
    Except String (List Cell × List Cell) :=
  match read_csv file with
  | .error e => .error e
  | .ok rows =>
    match getCol rows 0 with
    | .error e => .error e
    | .ok col0 =>
      match subAll (col0.headD Cell.nan) col0 with
      | .error e => .error e
      | .ok t1 =>
        match getCol rows 1 with
        | .error e => .error e
        | .ok col1 => .ok (t1.map (Cell.scale (1 / 1000)), col1)

/-! ## The writer, the scaler, the grid and the driver -/

/-- The observable effect of `DataFrame.to_csv(outputName + '.csv',
index=False)`: the file created or overwritten at the path, its header line,
and its data rows in order. -/
structure WrittenFile where
  path : String
  header : String
  rows : List (ℚ × ℚ)
deriving DecidableEq

/-- `saveFlowRateData(outputName, t, flowRate)`: build
`pd.DataFrame({'t': t, 'flow': flowRate})` — which raises `ValueError` when
the two arrays differ in length, before anything is written — and serialize
it with header `t,flow` to `outputName + '.csv'`. -/
def saveFlowRateData (outputName : String) (t flowRate : List ℚ) :
    Except String WrittenFile :=
  if t.length = flowRate.length then
    .ok ⟨outputName ++ ".csv", "t,flow", t.zip flowRate⟩
  else .error "ValueError"

/-- `np.arange(start, stop, step)` for positive `step`: `⌈(stop-start)/step⌉`
points `start + i*step`. -/
def arange (start stop step : ℚ) : List ℚ :=
  (List.range (⌈(stop - start) / step⌉).toNat).map (fun (i : ℕ) => start + (i : ℚ) * step)

/-- The inline scaler of the driver:
`convertedFlow = meanFlowRate * interpCCA * conversionConst`, elementwise. -/
def scaleFlow (meanFlowRate : ℚ) (interp : List ℚ) (conversionConst : ℚ) : List ℚ :=
  interp.map (fun v => meanFlowRate * v * conversionConst)

/-- Conversion of a loaded cell to the rational fed into the interpolator.
The original passes the raw numpy array to scipy; a non-numeric column would
make scipy raise.  A `NaN` entry (only producible here from a short padded
row) would propagate `NaN` floats in the original instead of raising; `ℚ`
has no `NaN`, so the model rejects it — no claim depends on that corner. -/
def cellToQ : Cell → Except String ℚ
  | .num q => .ok q
  | .nan => .error "NaN"
  | .nonnum => .error "TypeError"

def cellsToQ : List Cell → Except String (List ℚ)
  | [] => .ok []
  | c :: l =>
    match cellToQ c, cellsToQ l with
    | .ok q, .ok qs => .ok (q :: qs)
    | .error e, _ => .error e
    | _, .error e => .error e

/-- The `__main__` driver: `t_0 = 0`, `t_f = 1`, `dt = 0.0001`,
`meanFlowRate = 2`, `conversionConst = 1e-6/60`,
`t = np.arange(t_0, t_f + dt, dt)`, load, interpolate, scale, save to
`outputName + artery = 'Hoi-OlderAdults-Waveform' + '_ECA'`. -/
def runPipeline (file : Option (List (List Cell))) : Except String WrittenFile :=
  let t := arange 0 (1 + 1 / 10000) (1 / 10000)
  match loadFeaturePoints file with
  | .error e => .error e
  | .ok (Tc, Vc) =>
    match cellsToQ Tc, cellsToQ Vc with
    | .ok T, .ok V =>
      match interpolateFeatures t T V with
      | .error e => .error e
      | .ok interp =>
        saveFlowRateData ("Hoi-OlderAdults-Waveform" ++ "_ECA") t
          (scaleFlow 2 interp (1 / 1000000 / 60))
    | .error e, _ => .error e
    | _, .error e => .error e

/-- A run that raised, as a decidable observation. -/
def failed {α : Type} : Except String α → Bool
  | .error _ => true
  | .ok _ => false

/-! ## Theorems about the loader, the grid, the scaler and the writer -/

lemma subAll_num (X : ℚ) (g : (ℚ × ℚ) → ℚ) : ∀ (l : List (ℚ × ℚ)),
    subAll (Cell.num X) (l.map (fun p => Cell.num (g p))) =
      Except.ok (l.map (fun p => Cell.num (g p - X)))
  | [] => rfl
  | p :: l => by
    simp only [List.map_cons, subAll, Cell.sub]
    rw [subAll_num X g l]

/-- C3.  Time normalization: loading a well-formed two-column numeric file
whose raw first-column values are `data.map Prod.fst` (milliseconds, first
value `X`) and whose second column is `data.map Prod.snd` yields the times
`(raw - X) * 1e-3` — so the first time is exactly `0` — and the second
column unchanged, in file order and of equal length. -/
theorem loadFeaturePoints_normalizes (data : List (ℚ × ℚ)) (hne : data ≠ []) :
    loadFeaturePoints (some (data.map (fun p => [Cell.num p.1, Cell.num p.2]))) =
      Except.ok
        (data.map (fun p => Cell.num ((p.1 - (data.headD (0, 0)).1) * (1 / 1000))),
         data.map (fun p => Cell.num p.2)) ∧
    (data.map (fun p =>
      Cell.num ((p.1 - (data.headD (0, 0)).1) * (1 / 1000)))).headD Cell.nan
        = Cell.num 0 ∧
    (data.map (fun p =>
      Cell.num ((p.1 - (data.headD (0, 0)).1) * (1 / 1000)))).length = data.length ∧
    (data.map (fun p => Cell.num p.2)).length = data.length := by
  rcases data with _ | ⟨⟨X, b0⟩, rest⟩
  · exact absurd rfl hne
  have hrow : ∀ p : ℚ × ℚ, ([Cell.num p.1, Cell.num p.2] : List Cell).length = 2 :=
    fun p => rfl
  have hany : (([Cell.num X, Cell.num b0] :: rest.map
      (fun p => [Cell.num p.1, Cell.num p.2])).any
      (fun r => ([Cell.num X, Cell.num b0] : List Cell).length < r.length)) = false := by
    rw [List.any_eq_false]
    intro r hr
    rcases List.mem_cons.mp hr with hr | hr
    · subst hr; simp
    · obtain ⟨p, -, hp⟩ := List.mem_map.mp hr
      subst hp; simp
  have hread : read_csv (some (((X, b0) :: rest).map
      (fun p => [Cell.num p.1, Cell.num p.2]))) =
      Except.ok (((X, b0) :: rest).map (fun p => [Cell.num p.1, Cell.num p.2])) := by
    simp only [List.map_cons, read_csv, hany, Bool.false_eq_true, if_false]
    congr 1
    simp [padRow]
  have hcol0 : getCol (((X, b0) :: rest).map
      (fun p => [Cell.num p.1, Cell.num p.2])) 0 =
      Except.ok (((X, b0) :: rest).map (fun p => Cell.num p.1)) := by
    simp [getCol, List.map_map, Function.comp]
  have hcol1 : getCol (((X, b0) :: rest).map
      (fun p => [Cell.num p.1, Cell.num p.2])) 1 =
      Except.ok (((X, b0) :: rest).map (fun p => Cell.num p.2)) := by
    simp [getCol, List.map_map, Function.comp]
  have hsub : subAll (Cell.num X)
      (((X, b0) :: rest).map (fun p => Cell.num p.1)) =
      Except.ok (((X, b0) :: rest).map (fun p => Cell.num (p.1 - X))) :=
    subAll_num X (fun p => p.1) ((X, b0) :: rest)
  have hmapT : ((((X, b0) :: rest).map (fun p => Cell.num (p.1 - X))).map
      (Cell.scale (1 / 1000))) =
      ((X, b0) :: rest).map (fun p => Cell.num ((p.1 - X) * (1 / 1000))) := by
    rw [List.map_map]
    exact List.map_congr_left (fun p _ => rfl)
  refine ⟨?_, by simp, by simp, by simp⟩
  simp only [List.headD_cons]
  simp only [loadFeaturePoints, hread, hcol0, hcol1]
  have hhead : (((X, b0) :: rest).map (fun p => Cell.num p.1)).headD Cell.nan =
      Cell.num X := by simp
  rw [hhead, hsub]
  show Except.ok
      ((((X, b0) :: rest).map (fun p => Cell.num (p.1 - X))).map
          (Cell.scale (1 / 1000)),
        ((X, b0) :: rest).map (fun p => Cell.num p.2)) = _
  rw [hmapT]

/-- C4.  Grid cardinality: with `t_0 = 0`, `t_f = 1`, `dt = 0.0001` the
driver grid `np.arange(t_0, t_f + dt, dt)` has exactly `10001` points, the
first being `0` and the last exactly `1`. -/
theorem arange_grid_10001 :
    (arange 0 (1 + 1 / 10000) (1 / 10000)).length = 10001 ∧
    (arange 0 (1 + 1 / 10000) (1 / 10000)).headD 0 = 0 ∧
    (arange 0 (1 + 1 / 10000) (1 / 10000)).getLastD 0 = 1 := by
  have hceil : (⌈((1 + 1 / 10000 : ℚ) - 0) / (1 / 10000)⌉).toNat = 10001 := by
    norm_num
    rfl
  unfold arange
  rw [hceil]
  refine ⟨?_, ?_, ?_⟩
  · rw [List.length_map, List.length_range]
  · rw [show (10001 : ℕ) = 10000 + 1 from rfl, List.range_succ_eq_map,
      List.map_cons, List.headD_cons]
    norm_num
  · rw [show (10001 : ℕ) = 10000 + 1 from rfl, List.range_succ, List.map_append,
      List.map_cons, List.map_nil, List.getLastD_concat]
    push_cast
    norm_num

/-- C5.  Scaling linearity: the scaler computes
`flowRate[i] = meanFlowRate * interpolation[i] * conversionConstant`
elementwise, preserves length, and doubling `meanFlowRate` exactly doubles
every output value. -/
theorem scaleFlow_spec (m c : ℚ) (interp : List ℚ) :
    (scaleFlow m interp c).length = interp.length ∧
    (∀ i : Nat, (scaleFlow m interp c)[i]? =
      interp[i]?.map (fun v => m * v * c)) ∧
    scaleFlow (2 * m) interp c = (scaleFlow m interp c).map (fun x => 2 * x) := by
  refine ⟨by simp [scaleFlow], fun i => by simp [scaleFlow], ?_⟩
  simp only [scaleFlow, List.map_map]
  exact List.map_congr_left (fun v _ => by simp [Function.comp]; ring)

/-- C8.  Writer format: with equally long columns, `saveFlowRateData` writes
to the given output path with `.csv` appended, with header row `t,flow` and
exactly one data row per `(time, flowRate)` pair, in input order. -/
theorem saveFlowRateData_format (name : String) (t f : List ℚ)
    (h : t.length = f.length) :
    saveFlowRateData name t f =
      Except.ok ⟨name ++ ".csv", "t,flow", t.zip f⟩ ∧
    (t.zip f).length = t.length := by
  refine ⟨by simp [saveFlowRateData, h], ?_⟩
  rw [List.length_zip, h, min_self]

/-- C10.  Writer length mismatch: columns of different lengths make the
`DataFrame` constructor raise before anything is written, so no output file
is produced. -/
theorem saveFlowRateData_length_mismatch (name : String) (t f : List ℚ)
    (h : t.length ≠ f.length) :
    saveFlowRateData name t f = Except.error "ValueError" := by
  simp [saveFlowRateData, h]

/-! ## Loader error behaviour (C7) -/

lemma Cell.sub_nonnum (c0 : Cell) :
    Cell.sub Cell.nonnum c0 = Except.error "TypeError" := by
  cases c0 <;> rfl

lemma subAll_error (c0 : Cell) : ∀ (l : List Cell), Cell.nonnum ∈ l →
    ∃ e, subAll c0 l = Except.error e
  | [], h => absurd h (List.not_mem_nil _)
  | c :: l, h => by
    by_cases hc : c = Cell.nonnum
    · subst hc
      exact ⟨"TypeError", by simp [subAll, Cell.sub_nonnum]⟩
    · have hmem : Cell.nonnum ∈ l := by
        rcases List.mem_cons.mp h with h' | h'
        · exact absurd h'.symm hc
        · exact h'
      obtain ⟨e, he⟩ := subAll_error c0 l hmem
      cases hsub : c.sub c0 with
      | error e2 => exact ⟨e2, by simp [subAll, hsub]⟩
      | ok b => exact ⟨e, by simp [subAll, hsub, he]⟩

lemma padRow_length (n : Nat) (r : List Cell) (h : r.length ≤ n) :
    (padRow n r).length = n := by
  simp only [padRow, List.length_append, List.length_replicate]
  omega

lemma padRow_getD0 (n : Nat) (r : List Cell) :
    (padRow n r).getD 0 Cell.nan = r.headD Cell.nan := by
  cases r with
  | nil =>
    cases n with
    | zero => rfl
    | succ k => simp [padRow, List.replicate]
  | cons c l => simp [padRow]

lemma loadFeaturePoints_readErr (file : Option (List (List Cell))) (e : String)
    (h : read_csv file = .error e) : failed (loadFeaturePoints file) = true := by
  simp only [loadFeaturePoints, h, failed]

lemma loadFeaturePoints_colErr (file : Option (List (List Cell)))
    (rows : List (List Cell)) (e : String)
    (hr : read_csv file = .ok rows) (h : getCol rows 0 = .error e) :
    failed (loadFeaturePoints file) = true := by
  simp only [loadFeaturePoints, hr, h, failed]

lemma loadFeaturePoints_subErr (file : Option (List (List Cell)))
    (rows : List (List Cell)) (col0 : List Cell) (e : String)
    (hr : read_csv file = .ok rows) (h0 : getCol rows 0 = .ok col0)
    (h : subAll (col0.headD Cell.nan) col0 = .error e) :
    failed (loadFeaturePoints file) = true := by
  simp only [loadFeaturePoints, hr, h0, h, failed]

lemma loadFeaturePoints_col1Err (file : Option (List (List Cell)))
    (rows : List (List Cell)) (col0 t1 : List Cell) (e : String)
    (hr : read_csv file = .ok rows) (h0 : getCol rows 0 = .ok col0)
    (hs : subAll (col0.headD Cell.nan) col0 = .ok t1)
    (h1 : getCol rows 1 = .error e) :
    failed (loadFeaturePoints file) = true := by
  simp only [loadFeaturePoints, hr, h0, hs, h1, failed]

/-- C7, counterexample: a two-row file whose second (value) column holds
non-numeric tokens is loaded without any error — `loadFeaturePoints` returns
the normalized times together with the raw non-numeric value cells, refuting
the claim that every file containing non-numeric values fails. -/
theorem loadFeaturePoints_nonnumeric_returns :
    loadFeaturePoints
        (some [[Cell.num 1, Cell.nonnum], [Cell.num 2, Cell.nonnum]]) =
      Except.ok ([Cell.num 0, Cell.num (1 / 1000)],
        [Cell.nonnum, Cell.nonnum]) := by
  have hsub : subAll (Cell.num 1) [Cell.num 1, Cell.num 2] =
      Except.ok [Cell.num 0, Cell.num 1] := by
    norm_num [subAll, Cell.sub]
  simp only [loadFeaturePoints, read_csv, getCol, padRow, List.any_cons,
    List.any_nil, List.map_cons, List.map_nil, List.headD_cons]
  norm_num [hsub, Cell.scale]

/-- C7, amended.  `loadFeaturePoints` fails for a missing file, an empty
file, a file with a row longer than the first row, a file with fewer than
two columns, and a file with a non-numeric cell in the first (time) column.
(A non-numeric cell confined to the second column does not make it fail —
see the counterexample — and a short row is `NaN`-padded, not rejected.) -/
theorem loadFeaturePoints_errors (file : Option (List (List Cell)))
    (h : file = none ∨ file = some [] ∨
      (∃ r0 rs, file = some (r0 :: rs) ∧ ∃ r ∈ r0 :: rs, r0.length < r.length) ∨
      (∃ r0 rs, file = some (r0 :: rs) ∧ r0.length < 2) ∨
      (∃ r0 rs, file = some (r0 :: rs) ∧
        (∀ r ∈ r0 :: rs, r.length ≤ r0.length) ∧ 2 ≤ r0.length ∧
        ∃ r ∈ r0 :: rs, r.headD Cell.nan = Cell.nonnum)) :
    failed (loadFeaturePoints file) = true := by
  rcases h with rfl | rfl | ⟨r0, rs, rfl, r, hr, hlt⟩ | ⟨r0, rs, rfl, hlen⟩ |
    ⟨r0, rs, rfl, hbound, hlen, r, hr, hnn⟩
  · rfl
  · rfl
  · have hany : ((r0 :: rs).any (fun r => r0.length < r.length)) = true :=
      List.any_eq_true.mpr ⟨r, hr, by simpa using hlt⟩
    exact loadFeaturePoints_readErr _ "ParserError" (by simp [read_csv, hany])
  · cases hany : ((r0 :: rs).any (fun r => r0.length < r.length)) with
    | true =>
      exact loadFeaturePoints_readErr _ "ParserError" (by simp [read_csv, hany])
    | false =>
      have hread : read_csv (some (r0 :: rs)) =
          .ok ((r0 :: rs).map (padRow r0.length)) := by
        simp [read_csv, hany]
      have hpadlen : (padRow r0.length r0).length = r0.length :=
        padRow_length _ _ (le_refl _)
      have h01 : r0.length = 0 ∨ r0.length = 1 := by omega
      rcases h01 with h0 | h1
      · refine loadFeaturePoints_colErr _ _ "KeyError" hread ?_
        simp only [List.map_cons, getCol]
        rw [if_neg (show ¬0 < (padRow r0.length r0).length by
          rw [hpadlen, h0]; omega)]
      · have hcol0 : getCol ((r0 :: rs).map (padRow r0.length)) 0 =
            .ok (((r0 :: rs).map (padRow r0.length)).map
              (fun r => r.getD 0 Cell.nan)) := by
          simp only [List.map_cons, getCol]
          rw [if_pos (show 0 < (padRow r0.length r0).length by
            rw [hpadlen, h1]; omega)]
        cases hs : subAll
            (((((r0 :: rs).map (padRow r0.length)).map
              (fun r => r.getD 0 Cell.nan))).headD Cell.nan)
            (((r0 :: rs).map (padRow r0.length)).map
              (fun r => r.getD 0 Cell.nan)) with
        | error e => exact loadFeaturePoints_subErr _ _ _ _ hread hcol0 hs
        | ok t1 =>
          refine loadFeaturePoints_col1Err _ _ _ _ "KeyError" hread hcol0 hs ?_
          simp only [List.map_cons, getCol]
          rw [if_neg (show ¬1 < (padRow r0.length r0).length by
            rw [hpadlen, h1]; omega)]
  · have hany : ((r0 :: rs).any (fun r => r0.length < r.length)) = false := by
      rw [List.any_eq_false]
      intro x hx
      simpa using not_lt.mpr (hbound x hx)
    have hread : read_csv (some (r0 :: rs)) =
        .ok ((r0 :: rs).map (padRow r0.length)) := by
      simp [read_csv, hany]
    have hpadlen : (padRow r0.length r0).length = r0.length :=
      padRow_length _ _ (le_refl _)
    have hcol0 : getCol ((r0 :: rs).map (padRow r0.length)) 0 =
        .ok (((r0 :: rs).map (padRow r0.length)).map
          (fun r => r.getD 0 Cell.nan)) := by
      simp only [List.map_cons, getCol]
      rw [if_pos (show 0 < (padRow r0.length r0).length by
        rw [hpadlen]; omega)]
    have hmem : Cell.nonnum ∈ ((r0 :: rs).map (padRow r0.length)).map
        (fun r => r.getD 0 Cell.nan) := by
      refine List.mem_map.mpr ⟨padRow r0.length r, ?_, ?_⟩
      · exact List.mem_map.mpr ⟨r, hr, rfl⟩
      · rw [padRow_getD0, hnn]
    obtain ⟨e, he⟩ := subAll_error _ _ hmem
    exact loadFeaturePoints_subErr _ _ _ _ hread hcol0 he

/-- C9.  Determinism of the pipeline: the whole run is a pure function of
the input file contents (with the constants and the output path fixed in the
driver), so two runs on identical file contents produce identical written
files — rerunning overwrites the output with the same bytes. -/
theorem runPipeline_deterministic (file1 file2 : Option (List (List Cell)))
    (h : file1 = file2) : runPipeline file1 = runPipeline file2 := by
  rw [h]

/-! ## Concrete witnesses instantiating the theorems with hypotheses -/

/-- Witness for C1 at knots `(0,0), (1,1), (2,1)` and targets
`0, 1/2, 1, 3/2, 2`. -/
theorem interpolateFeatures_monotone_witness :
    ∃ out, interpolateFeatures [0, 1/2, 1, 3/2, 2] [0, 1, 2] [0, 1, 1] =
      Except.ok out ∧ List.Chain' (· ≤ ·) out :=
  interpolateFeatures_monotone [0, 1/2, 1, 3/2, 2] [0, 1, 2] [0, 1, 1]
    (by norm_num) rfl
    (by norm_num [List.chain'_cons, List.chain'_singleton])
    (by norm_num [List.chain'_cons, List.chain'_singleton])
    (by norm_num [List.chain'_cons, List.chain'_singleton])
    (by intro x hx; fin_cases hx <;>
      norm_num [List.getLastD_cons, List.getLastD_nil])

/-- Witness for C2 on the two-point set `(0,5), (2,7)`. -/
theorem interpolateFeatures_knots_witness :
    interpolateFeatures [0, 2] [0, 2] [5, 7] = Except.ok [5, 7] :=
  interpolateFeatures_knots [0, 2] [5, 7] (by norm_num) rfl
    (by norm_num [List.chain'_cons, List.chain'_singleton])

/-- Witness for C3 on the two-row file with raw indices `5, 7` (ms) and
values `2, 3`. -/
theorem loadFeaturePoints_normalizes_witness :
    loadFeaturePoints (some (([(5, 2), (7, 3)] : List (ℚ × ℚ)).map
        (fun p => [Cell.num p.1, Cell.num p.2]))) =
      Except.ok
        (([(5, 2), (7, 3)] : List (ℚ × ℚ)).map (fun p =>
          Cell.num ((p.1 -
            (([(5, 2), (7, 3)] : List (ℚ × ℚ)).headD (0, 0)).1) * (1 / 1000))),
         ([(5, 2), (7, 3)] : List (ℚ × ℚ)).map (fun p => Cell.num p.2)) ∧
    (([(5, 2), (7, 3)] : List (ℚ × ℚ)).map (fun p =>
      Cell.num ((p.1 -
        (([(5, 2), (7, 3)] : List (ℚ × ℚ)).headD (0, 0)).1) *
          (1 / 1000)))).headD Cell.nan = Cell.num 0 ∧
    (([(5, 2), (7, 3)] : List (ℚ × ℚ)).map (fun p =>
      Cell.num ((p.1 -
        (([(5, 2), (7, 3)] : List (ℚ × ℚ)).headD (0, 0)).1) *
          (1 / 1000)))).length = ([(5, 2), (7, 3)] : List (ℚ × ℚ)).length ∧
    (([(5, 2), (7, 3)] : List (ℚ × ℚ)).map (fun p => Cell.num p.2)).length =
      ([(5, 2), (7, 3)] : List (ℚ × ℚ)).length :=
  loadFeaturePoints_normalizes [(5, 2), (7, 3)] (by simp)

/-- Witness for C6 on a single-knot input. -/
theorem interpolateFeatures_degenerate_witness :
    interpolateFeatures [0, 1] [1] [5] = Except.error "ValueError" :=
  interpolateFeatures_degenerate [0, 1] [1] [5] (Or.inl (by norm_num))

/-- Witness for the amended C7 on a file whose time column starts with a
non-numeric token. -/
theorem loadFeaturePoints_errors_witness :
    failed (loadFeaturePoints
      (some [[Cell.nonnum, Cell.num 3], [Cell.num 2, Cell.num 4]])) = true :=
  loadFeaturePoints_errors
    (some [[Cell.nonnum, Cell.num 3], [Cell.num 2, Cell.num 4]])
    (Or.inr (Or.inr (Or.inr (Or.inr
      ⟨[Cell.nonnum, Cell.num 3], [[Cell.num 2, Cell.num 4]], rfl,
        by intro r hr; fin_cases hr <;> simp,
        by simp,
        ⟨[Cell.nonnum, Cell.num 3], by simp, rfl⟩⟩))))

/-- Witness for C8 on columns `[0, 1]` and `[2, 3]`. -/
theorem saveFlowRateData_format_witness :
    saveFlowRateData "out" [0, 1] [2, 3] =
      Except.ok ⟨"out" ++ ".csv", "t,flow", ([0, 1] : List ℚ).zip [2, 3]⟩ ∧
    (([0, 1] : List ℚ).zip [2, 3]).length = ([0, 1] : List ℚ).length :=
  saveFlowRateData_format "out" [0, 1] [2, 3] rfl

/-- Witness for C10 on columns of lengths 1 and 0. -/
theorem saveFlowRateData_length_mismatch_witness :
    saveFlowRateData "out" [0] [] = Except.error "ValueError" :=
  saveFlowRateData_length_mismatch "out" [0] [] (by simp)

/-- Witness for C9 on a concrete three-row file. -/
theorem runPipeline_deterministic_witness :
    runPipeline (some [[Cell.num 0, Cell.num 0], [Cell.num 500, Cell.num 1],
        [Cell.num 1000, Cell.num 0]]) =
      runPipeline (some [[Cell.num 0, Cell.num 0], [Cell.num 500, Cell.num 1],
        [Cell.num 1000, Cell.num 0]]) :=
  runPipeline_deterministic _ _ rfl

end Waveforms
